import Mathlib

/-!
Verification of the agent execution core (pkg/agent): retry/backoff policy,
streaming delta aggregator, tool orchestrator, run-loop event model and the
lifecycle state machine.  Go source functions are embedded shallowly: machine
integers become Int/Nat, `time.Duration` arithmetic is carried out exactly in
the rationals, errors become `Option String` (none = nil), and the external
collaborators (Provider, Tool registry, json marshalling, context) are
parameters of the embedded functions.
-/

namespace AgentCore

/-! ## String helpers (Go strings.Contains / ToLower semantics) -/

/-- hasPrefixC pat hay: pat is a prefix of hay (on character lists). -/
def hasPrefixC : List Char → List Char → Bool
  | [], _ => true
  | _ :: _, [] => false
  | p :: ps, h :: hs => p = h && hasPrefixC ps hs

/-- containsC hay pat: pat occurs as a contiguous substring of hay
(Go strings.Contains; the empty pattern is contained in everything). -/
def containsC : List Char → List Char → Bool
  | hay, pat =>
    hasPrefixC pat hay ||
      match hay with
      | [] => false
      | _ :: t => containsC t pat

/-- strContains s pat: Go strings.Contains(s, pat). -/
def strContains (s pat : String) : Bool :=
  containsC s.data pat.data

/-- strToLower: Go strings.ToLower, character by character (the transient
markers and every error text considered here are ASCII). -/
def strToLower (s : String) : String :=
  ⟨s.data.map Char.toLower⟩

/-- concatAll: concatenation of a list of strings, in order. -/
def concatAll : List String → String
  | [] => ""
  | x :: xs => x ++ concatAll xs

/-- lastNonEmptyD d xs: the last string in xs that is not empty, or d when
every entry is empty (the overwrite-only-on-nonempty accumulation order). -/
def lastNonEmptyD (d : String) (xs : List String) : String :=
  xs.foldl (fun acc x => if x ≠ "" then x else acc) d

/-! ## Retry policy (pkg/agent/retry.go) -/

/-- RetryConfig, retry.go:10-15.  Durations are modelled exactly as rationals
(nanosecond counts); MaxRetries is a Go int, hence Int. -/
structure RetryConfig where
  MaxRetries : Int
  InitialBackoff : ℚ
  MaxBackoff : ℚ
  Multiplier : ℚ
deriving DecidableEq, Repr

/-- DefaultRetryConfig, retry.go:18-25 (durations in nanoseconds). -/
def DefaultRetryConfig : RetryConfig :=
  { MaxRetries := 2
    InitialBackoff := 500000000
    MaxBackoff := 5000000000
    Multiplier := 2 }

/-- retriablePatterns, retry.go:36-44: the transient markers the code
searches for in the lower-cased error text. -/
def retriablePatterns : List String :=
  ["timeout", "connection refused", "temporary failure", "rate limit",
   "429", "503", "context deadline exceeded"]

/-- IsRetriable, retry.go:28-53.  An error is `Option String`
(none = Go nil error, some s = an error whose Error() text is s). -/
def IsRetriable : Option String → Bool
  | none => false
  | some s => retriablePatterns.any (fun pat => strContains (strToLower s) pat)

/-- Result triple of retryWithBackoff, mirroring Go (any, int, error). -/
structure RetryResult where
  value : Option String
  attempts : Int
  err : Option String
deriving DecidableEq, Repr

/-- Observable trace of one retryWithBackoff run: the returned triple, the
list of completed backoff waits (durations, in order), and the number of
times the operation closure was invoked. -/
structure RetryTrace where
  res : RetryResult
  waits : List ℚ
  calls : Nat
deriving DecidableEq, Repr

/-- Loop body of retryWithBackoff, retry.go:64-93.  The operation is an
attempt-indexed oracle `op`; `cancel a` tells whether the context fires
during the wait that follows attempt `a`; `ctxErr` is ctx.Err().  `fuel`
counts the loop iterations still allowed by the loop condition
attempt ≤ MaxRetries; the break at retry.go:79-82 fires strictly before
fuel can run out, so the fuel-0 branch is reached only when MaxRetries < 0
(the loop body never runs, lastErr is nil). -/
def retryGo (cfg : RetryConfig) (op : Nat → Except String String)
    (cancel : Nat → Bool) (ctxErr : String) :
    Nat → Nat → ℚ → RetryTrace
  | 0, _, _ => ⟨⟨none, cfg.MaxRetries, none⟩, [], 0⟩
  | fuel + 1, attempt, backoff =>
    match op attempt with
    | .ok v => ⟨⟨some v, (attempt : Int), none⟩, [], 1⟩
    | .error e =>
      if IsRetriable (some e) = false then
        ⟨⟨none, (attempt : Int), some e⟩, [], 1⟩
      else if (attempt : Int) ≥ cfg.MaxRetries then
        ⟨⟨none, cfg.MaxRetries, some e⟩, [], 1⟩
      else if cancel attempt then
        ⟨⟨none, (attempt : Int), some ctxErr⟩, [], 1⟩
      else
        let t := retryGo cfg op cancel ctxErr fuel (attempt + 1)
          (min (backoff * cfg.Multiplier) cfg.MaxBackoff)
        ⟨t.res, backoff :: t.waits, t.calls + 1⟩

/-- retryWithBackoff, retry.go:56-96. -/
def retryWithBackoff (cfg : RetryConfig) (op : Nat → Except String String)
    (cancel : Nat → Bool) (ctxErr : String) : RetryTrace :=
  retryGo cfg op cancel ctxErr (cfg.MaxRetries + 1).toNat 0 cfg.InitialBackoff

/-- Execution dispatch of the orchestrator, tool_execution.go:122-127: with a
configured policy whose MaxRetries is positive the operation goes through
retryWithBackoff, otherwise it is executed exactly once (retries stays 0). -/
def executeOperation (retryConfig : Option RetryConfig)
    (op : Nat → Except String String) (cancel : Nat → Bool) (ctxErr : String) :
    RetryTrace :=
  match retryConfig with
  | some cfg =>
    if 0 < cfg.MaxRetries then retryWithBackoff cfg op cancel ctxErr
    else
      match op 0 with
      | .ok v => ⟨⟨some v, 0, none⟩, [], 1⟩
      | .error e => ⟨⟨none, 0, some e⟩, [], 1⟩
  | none =>
    match op 0 with
    | .ok v => ⟨⟨some v, 0, none⟩, [], 1⟩
    | .error e => ⟨⟨none, 0, some e⟩, [], 1⟩

/-- The successive values the `backoff` variable takes: bseq cfg b 0 = b and
each wait updates it to min(backoff * Multiplier, MaxBackoff)
(retry.go:62 and retry.go:91). -/
def bseq (cfg : RetryConfig) (b : ℚ) : Nat → ℚ
  | 0 => b
  | j + 1 => min (bseq cfg b j * cfg.Multiplier) cfg.MaxBackoff

/-- First n values of the backoff sequence started at b. -/
def backoffIter (cfg : RetryConfig) (b : ℚ) : Nat → List ℚ
  | 0 => []
  | n + 1 => b :: backoffIter cfg (min (b * cfg.Multiplier) cfg.MaxBackoff) n

/-! ## Streaming delta aggregator (run_streaming.go, src/unnamed/part_002) -/

/-- The structured input of a finalized tool call, part_002:158-167.
json.Unmarshal is external to this repository, so the parsed value is
represented by what determines it: `nilInput` when no argument text arrived
(the Go `input` variable keeps its nil zero value), and `fromArgs s` for the
value obtained by unmarshalling the nonempty buffer s (an empty object when
the unmarshal fails).  Equal buffers yield equal parsed inputs. -/
inductive ToolInput
  | nilInput
  | fromArgs (args : String)
deriving DecidableEq, Repr

/-- A complete tool call (llm.ToolCall as the loop consumes it): identifier,
name, structured input. -/
structure ToolCall where
  id : String
  name : String
  input : ToolInput
deriving DecidableEq, Repr

/-- One accumulation slot of the streaming aggregator, part_002:102-106:
partial id, partial name, growing argument-text buffer. -/
structure Slot where
  id : String
  name : String
  args : String
deriving DecidableEq, Repr

/-- The freshly created slot, part_002:131-135. -/
def emptySlot : Slot := ⟨"", "", ""⟩

/-- One incoming tool-call delta, llm chunk with Index/ID/Name/ArgumentsDelta
fields (Index is a Go int). -/
structure ToolCallDelta where
  index : Int
  id : String
  name : String
  argumentsDelta : String
deriving DecidableEq, Repr

/-- Accumulation of one delta into its slot, part_002:138-147: a nonempty id
or name overwrites the stored value, a nonempty argument delta appends. -/
def updateSlot (s : Slot) (d : ToolCallDelta) : Slot :=
  { id := if d.id ≠ "" then d.id else s.id
    name := if d.name ≠ "" then d.name else s.name
    args := if d.argumentsDelta ≠ "" then s.args ++ d.argumentsDelta else s.args }

/-- The toolCallsMap, part_002:102-106: a Go map from int to slot, modelled
as an association list whose keys stay pairwise distinct (only length and
per-key lookup of the map are ever used). -/
def mapFind (m : List (Int × Slot)) (k : Int) : Option Slot :=
  (m.find? (fun p => p.1 = k)).map (·.2)

/-- Map update: replace the entry of an existing key, append a new key. -/
def mapInsert (m : List (Int × Slot)) (k : Int) (v : Slot) : List (Int × Slot) :=
  match m with
  | [] => [(k, v)]
  | (k0, v0) :: t => if k0 = k then (k0, v) :: t else (k0, v0) :: mapInsert t k v

/-- One fragment of the Provider stream, part_002:108-152.  `toolCall none`
is a tool-call chunk whose ToolCall pointer is nil; `other` covers the chunk
types the aggregation ignores (ToolResult, Thinking, Done, Error). -/
inductive Chunk
  | text (delta : String)
  | reasoning (delta : String)
  | toolCall (d : Option ToolCallDelta)
  | other
deriving DecidableEq, Repr

/-- Message roles (llm.Message, external; modelled from the spec: a Message
has a role user / assistant / tool-result). -/
inductive Role
  | user
  | assistant
deriving DecidableEq, Repr

/-- Content blocks of a message.  Modelled from the spec: text, tool-call
request, tool-call result blocks; a result block carries the tool-use id,
the content text and the error mark. -/
inductive ContentBlock
  | textBlock (s : String)
  | toolCallBlock (tc : ToolCall)
  | toolResultBlock (toolUseID : String) (content : String) (isError : Bool)
deriving DecidableEq, Repr

/-- llm.Message.  Modelled from the spec: a role and a list of content
blocks. -/
structure Message where
  role : Role
  blocks : List ContentBlock
deriving DecidableEq, Repr

/-- Message.GetToolCalls.  Modelled from the spec: the tool-call request
blocks of the message, in order. -/
def getToolCalls (m : Message) : List ToolCall :=
  m.blocks.filterMap (fun b =>
    match b with
    | .toolCallBlock tc => some tc
    | _ => none)

/-- Message.GetContent.  Modelled from the spec: the text content of the
message (concatenation of its text blocks). -/
def getContent (m : Message) : String :=
  concatAll (m.blocks.filterMap (fun b =>
    match b with
    | .textBlock s => some s
    | _ => none))

/-- Events on the agent event queue (AgentEvent, types.go:135-155).  Error
payloads are the Go error text; done carries the turn result encoded as
(text, messages of the turn, tools used, step count), types.go:25-32. -/
inductive Event
  | text (s : String)
  | reasoning (s : String)
  | toolCall (tc : ToolCall)
  | toolResult (id : String) (content : String) (isError : Bool)
  | done (text : String) (messages : List Message)
      (toolsUsed : List String) (stepCount : Nat)
  | error (e : String)
deriving DecidableEq, Repr

/-- Aggregation state of one streaming provider call: the running text
builder, the accumulation map, and the events forwarded so far. -/
structure AggState where
  text : String
  map : List (Int × Slot)
  events : List Event
deriving DecidableEq, Repr

/-- The state at the start of a streaming call, part_002:100-106. -/
def initAgg : AggState := ⟨"", [], []⟩

/-- Processing of one chunk, part_002:108-152: nonempty text deltas are
appended to the builder and forwarded, nonempty reasoning deltas are
forwarded, tool-call deltas are accumulated into their slot of the map, and
the remaining chunk types are ignored. -/
def processChunk (st : AggState) (c : Chunk) : AggState :=
  match c with
  | .text d =>
    if d ≠ "" then
      { st with text := st.text ++ d, events := st.events ++ [Event.text d] }
    else st
  | .reasoning d =>
    if d ≠ "" then { st with events := st.events ++ [Event.reasoning d] }
    else st
  | .toolCall none => st
  | .toolCall (some d) =>
    let entry := (mapFind st.map d.index).getD emptySlot
    { st with map := mapInsert st.map d.index (updateSlot entry d) }
  | .other => st

/-- Consuming the whole fragment sequence until the channel closes. -/
def processChunks (cs : List Chunk) : AggState :=
  cs.foldl processChunk initAgg

/-- Finalization of one slot into a tool call, part_002:158-173. -/
def slotToCall (s : Slot) : ToolCall :=
  ⟨s.id, s.name, if s.args = "" then ToolInput.nilInput else ToolInput.fromArgs s.args⟩

/-- Finalization of the map, part_002:155-175: i runs over
0..len(toolCallsMap)-1 and only indices present in the map yield a block. -/
def finalizeToolCalls (m : List (Int × Slot)) : List ToolCall :=
  (List.range m.length).filterMap
    (fun i : Nat => (mapFind m (i : Int)).map slotToCall)

/-- callProviderStreaming, part_002:86-193, given the chunk sequence the
external Provider emits: the events forwarded while streaming, and the
assistant message assembled at the end (text block when the builder is
nonempty, then the finalized tool calls). -/
def callProviderStreaming (cs : List Chunk) : List Event × Message :=
  let st := processChunks cs
  (st.events,
   ⟨Role.assistant,
    (if st.text.length > 0 then [ContentBlock.textBlock st.text] else []) ++
      (finalizeToolCalls st.map).map ContentBlock.toolCallBlock⟩)

/-- The tool-call indices observed in a delta sequence, in arrival order. -/
def observedIndices (cs : List Chunk) : List Int :=
  cs.filterMap (fun c =>
    match c with
    | .toolCall (some d) => some d.index
    | _ => none)

/-! ## Tool orchestrator (pkg/agent/tool_execution.go) -/

/-- llm.ToolResultBlock: the result content block produced for one call. -/
structure ToolResultBlock where
  toolUseID : String
  content : String
  isError : Bool
deriving DecidableEq, Repr

/-- Outcome of one operation execution (tool_execution.go:106-127),
covering the optional retry: an unexpected internal panic, or the (output,
execErr) pair the retry mechanism or the direct execution hands back.  The
retry mechanism itself is retryWithBackoff above. -/
inductive OpOutcome
  | panics (msg : String)
  | finished (value : Option String) (err : Option String)
deriving DecidableEq, Repr

/-- The external collaborators one batch execution consults: the registry
lookup (tool_execution.go:57), input serialization (json.Marshal of
tc.Input, line 76; error gives the message), the execution outcome per
call (lines 106-127), and output serialization (json.Marshal of the output,
line 141, whose error the code ignores). -/
structure ToolEnv where
  registered : String → Bool
  marshalInput : ToolCall → Except String String
  exec : ToolCall → String → OpOutcome
  marshalOut : Option String → String

/-- An ASCII single quote, kept out of string literals. -/
def sq : String := String.singleton (Char.ofNat 39)

/-- The result block one call yields, tool_execution.go:34-174: a panic is
recovered into an error block; an unregistered name, a serialization
failure and an execution error each yield an error block; success yields
the marshalled output.  Every branch produces exactly one block. -/
def runToolCall (env : ToolEnv) (tc : ToolCall) : ToolResultBlock :=
  if env.registered tc.name = false then
    ⟨tc.id, "Error: tool " ++ sq ++ tc.name ++ sq ++ " not found", true⟩
  else
    match env.marshalInput tc with
    | .error msg =>
      ⟨tc.id, "Error: failed to marshal arguments: " ++ msg, true⟩
    | .ok inputJSON =>
      match env.exec tc inputJSON with
      | .panics msg => ⟨tc.id, "Tool execution panic: " ++ msg, true⟩
      | .finished _ (some e) => ⟨tc.id, "Error: " ++ e, true⟩
      | .finished v none => ⟨tc.id, env.marshalOut v, false⟩

/-- executeToolsWithEvents, tool_execution.go:17-179: a nil registry returns
(nil, nil) at once (lines 18-21); otherwise the loop appends, per call, one
entry to usedNames (line 29), one result block and one tool-result event
(the recovered-panic path included).  Returns (result blocks, used names,
emitted events). -/
def executeToolsWithEvents (env : ToolEnv) (hasRegistry : Bool)
    (toolCalls : List ToolCall) :
    List ToolResultBlock × List String × List Event :=
  if hasRegistry = false then ([], [], [])
  else
    toolCalls.foldl
      (fun acc tc =>
        let b := runToolCall env tc
        (acc.1 ++ [b], acc.2.1 ++ [tc.name],
         acc.2.2 ++ [Event.toolResult b.toolUseID b.content b.isError]))
      ([], [], [])

/-! ## Lifecycle state machine (pkg/agent/state.go, agent.go) -/

/-- Agent state, state.go:6-11. -/
inductive State
  | ready
  | running
  | stopping
  | stopped
deriving DecidableEq, Repr

/-- The atomic (mutex-guarded) state mutations of agent.go: runStart is
the check-and-set of Run (agent.go:277-284: rejected when Stopping or
Stopped, otherwise state := Running); loopExit is the unconditional
deferred restore state := Ready (agent.go:286-290); closeBegin is the
check-and-set of Close (agent.go:399-405: early return when Stopped,
otherwise state := Stopping); closeEnd is the final state := Stopped of
Close (agent.go:432-434). -/
inductive LifeAction
  | runStart
  | loopExit
  | closeBegin
  | closeEnd
deriving DecidableEq, Repr

/-- Effect of one atomic action on the state flag. -/
def stepState (s : State) (a : LifeAction) : State :=
  match a with
  | .runStart => if s = State.stopped ∨ s = State.stopping then s else State.running
  | .loopExit => State.ready
  | .closeBegin => if s = State.stopped then s else State.stopping
  | .closeEnd => State.stopped

/-- State after a sequence of atomic actions. -/
def runActions (s : State) (acts : List LifeAction) : State :=
  acts.foldl stepState s

/-! ## Run loops and the event queue (agent.go, run_blocking.go, part_002) -/

/-- ctx.Err() text after cancellation. -/
def ctxCanceledErr : String := "context canceled"

/-- ErrAgentStopped, agent.go:23. -/
def errAgentStopped : String := "agent is stopped"

/-- Behavior of one blocking loop iteration as decided by the environment:
the cancellation signal or the stop channel is set at the iteration top
(run_blocking.go:34-42), the Provider call fails (line 47-51), the body
panics (recovered at run_blocking.go:17-28), or the Provider returns a
message. -/
inductive BStep
  | cancelled
  | stopped
  | provErr (e : String)
  | panicked (msg : String)
  | reply (m : Message)
deriving DecidableEq, Repr

/-- Behavior of one streaming loop iteration (part_002:35-53): as BStep,
except that a successful Provider call yields the chunk sequence of the
stream, which the aggregator folds into the assistant message. -/
inductive SStep
  | cancelled
  | stopped
  | provErr (e : String)
  | panicked (msg : String)
  | chunks (cs : List Chunk)
deriving DecidableEq, Repr

/-- Turn result under construction: buildResult, run_blocking.go:88-101
(text, history slice since the turn start, tools used, step count). -/
structure LoopOut where
  events : List Event
  result : Option (String × List Message × List String × Nat)
deriving DecidableEq, Repr

/-- runLoopBlocking, run_blocking.go:15-85, driven by the iteration script.
hist is the history since the turn start, toolsUsed and stepCount the
running accumulators.  Returns none when the script ends with the loop
still waiting on the Provider (a non-terminating run); otherwise the
events the loop emitted and the turn result (none when the loop emitted a
terminal error instead).  A panic mid-iteration may in reality follow
already-emitted non-terminal events of that iteration; only its single
terminal error event is recorded here. -/
def runLoopBlocking (env : ToolEnv) (hasRegistry : Bool) :
    List BStep → List Message → List String → Nat → Option LoopOut
  | [], _, _, _ => none
  | step :: rest, hist, toolsUsed, stepCount =>
    match step with
    | .cancelled => some ⟨[Event.error ctxCanceledErr], none⟩
    | .stopped => some ⟨[Event.error errAgentStopped], none⟩
    | .provErr e => some ⟨[Event.error e], none⟩
    | .panicked msg =>
      some ⟨[Event.error ("execution loop panic: " ++ msg)], none⟩
    | .reply m =>
      let hist1 := hist ++ [m]
      let tcs := getToolCalls m
      if tcs = [] then
        let text := getContent m
        some ⟨(if text = "" then [] else [Event.text text]),
              some (text, hist1, toolsUsed, stepCount + 1)⟩
      else
        let r := executeToolsWithEvents env hasRegistry tcs
        let hist2 := hist1 ++
          [⟨Role.user, r.1.map (fun b =>
             ContentBlock.toolResultBlock b.toolUseID b.content b.isError)⟩]
        match runLoopBlocking env hasRegistry rest hist2
            (toolsUsed ++ r.2.1) (stepCount + 1) with
        | none => none
        | some out =>
          some ⟨tcs.map Event.toolCall ++ r.2.2 ++ out.events, out.result⟩

/-- runLoopStreaming, part_002:17-83: identical control flow, except that a
successful Provider call forwards the delta events of the stream and that
finalization emits no text event (the text already went out as deltas). -/
def runLoopStreaming (env : ToolEnv) (hasRegistry : Bool) :
    List SStep → List Message → List String → Nat → Option LoopOut
  | [], _, _, _ => none
  | step :: rest, hist, toolsUsed, stepCount =>
    match step with
    | .cancelled => some ⟨[Event.error ctxCanceledErr], none⟩
    | .stopped => some ⟨[Event.error errAgentStopped], none⟩
    | .provErr e => some ⟨[Event.error e], none⟩
    | .panicked msg =>
      some ⟨[Event.error ("streaming loop panic: " ++ msg)], none⟩
    | .chunks cs =>
      let pm := callProviderStreaming cs
      let m := pm.2
      let hist1 := hist ++ [m]
      let tcs := getToolCalls m
      if tcs = [] then
        some ⟨pm.1, some (getContent m, hist1, toolsUsed, stepCount + 1)⟩
      else
        let r := executeToolsWithEvents env hasRegistry tcs
        let hist2 := hist1 ++
          [⟨Role.user, r.1.map (fun b =>
             ContentBlock.toolResultBlock b.toolUseID b.content b.isError)⟩]
        match runLoopStreaming env hasRegistry rest hist2
            (toolsUsed ++ r.2.1) (stepCount + 1) with
        | none => none
        | some out =>
          some ⟨pm.1 ++ tcs.map Event.toolCall ++ r.2.2 ++ out.events,
                out.result⟩

/-- The mode-tagged Provider script of one run. -/
inductive Script
  | blocking (s : List BStep)
  | streaming (s : List SStep)
deriving DecidableEq, Repr

/-- Run, agent.go:253-316, as the list of events the goroutine sends before
closing the queue: a run arriving while Stopping or Stopped is rejected
with one error event (agent.go:277-282); a panic of the goroutine outside
the loop is recovered into one error event (agent.go:263-274, modelled at
its realistic site, before the loop); otherwise the loop runs and a non-nil
result is followed by exactly one done event (agent.go:310-312).  Returns
none for a run that never terminates. -/
def runAgent (env : ToolEnv) (hasRegistry : Bool) (st : State)
    (outerPanic : Option String) (userText : String) (sc : Script) :
    Option (List Event) :=
  if st = State.stopped ∨ st = State.stopping then
    some [Event.error errAgentStopped]
  else
    match outerPanic with
    | some msg => some [Event.error ("agent panic: " ++ msg)]
    | none =>
      let userMsg : Message := ⟨Role.user, [ContentBlock.textBlock userText]⟩
      let out :=
        match sc with
        | .blocking s => runLoopBlocking env hasRegistry s [userMsg] [] 0
        | .streaming s => runLoopStreaming env hasRegistry s [userMsg] [] 0
      match out with
      | none => none
      | some ⟨evs, none⟩ => some evs
      | some ⟨evs, some (text, msgs, toolsUsed, stepCount)⟩ =>
        some (evs ++ [Event.done text msgs toolsUsed stepCount])

/-- Terminal events of the queue: done and error. -/
def isTerminal : Event → Bool
  | .done _ _ _ _ => true
  | .error _ => true
  | _ => false

/-- Transient markers as the spec words them.  Modelled from the spec:
known transient markers (timeout, connection refused, temporary failure,
rate limiting, HTTP 429/503, deadline exceeded), lower-cased for the
case-insensitive comparison the spec describes. -/
def specTransientMarkers : List String :=
  ["timeout", "connection refused", "temporary failure", "rate limiting",
   "http 429", "http 503", "deadline exceeded"]

/-- Retriability as the spec words it (for comparison with IsRetriable):
non-nil and the lower-cased description contains a listed marker. -/
def specRetriable : Option String → Bool
  | none => false
  | some s => specTransientMarkers.any (fun pat => strContains (strToLower s) pat)

/-! ## Theorems -/

theorem hasPrefixC_iff (p h : List Char) :
    hasPrefixC p h = true ↔ ∃ r, h = p ++ r := by
  induction p generalizing h with
  | nil => simp [hasPrefixC]
  | cons a p ih =>
    cases h with
    | nil => simp [hasPrefixC]
    | cons b t =>
      simp only [hasPrefixC, Bool.and_eq_true, decide_eq_true_eq, ih,
        List.cons_append, List.cons.injEq]
      constructor
      · rintro ⟨rfl, r, rfl⟩
        exact ⟨r, rfl, rfl⟩
      · rintro ⟨r, rfl, rfl⟩
        exact ⟨rfl, r, rfl⟩

theorem containsC_iff (hay pat : List Char) :
    containsC hay pat = true ↔ ∃ l r, hay = l ++ pat ++ r := by
  induction hay with
  | nil =>
    simp only [containsC, Bool.or_eq_true, hasPrefixC_iff]
    constructor
    · rintro (⟨r, hr⟩ | h)
      · exact ⟨[], r, by simpa using hr⟩
      · cases h
    · rintro ⟨l, r, hr⟩
      rcases List.append_eq_nil.mp hr.symm with ⟨h1, h2⟩
      rcases List.append_eq_nil.mp h1 with ⟨rfl, rfl⟩
      exact Or.inl ⟨r, by simpa using hr⟩
  | cons a t ih =>
    simp only [containsC, Bool.or_eq_true, hasPrefixC_iff, ih]
    constructor
    · rintro (⟨r, hr⟩ | ⟨l, r, hr⟩)
      · exact ⟨[], r, by simpa using hr⟩
      · exact ⟨a :: l, r, by simp [hr]⟩
    · rintro ⟨l, r, hr⟩
      cases l with
      | nil => exact Or.inl ⟨r, by simpa using hr⟩
      | cons x l =>
        rcases List.cons.injEq .. ▸ hr with ⟨rfl, hl⟩
        exact Or.inr ⟨l, r, by simpa using hr⟩

/-- Claim C5, counterexample: the error text "deadline exceeded" contains
the transient marker the spec lists ("deadline exceeded"), yet IsRetriable
classifies it non-retriable — the code pattern is the longer string
"context deadline exceeded" (retry.go:43).  The claimed equivalence between
IsRetriable and the spec marker list is therefore false at this input. -/
theorem c5_counterexample :
    specRetriable (some "deadline exceeded") = true ∧
    IsRetriable (some "deadline exceeded") = false := by
  constructor <;> decide

/-- Claim C5, amended: IsRetriable classifies an error retriable if and
only if it is non-nil and its lower-cased description contains one of the
code patterns "timeout", "connection refused", "temporary failure",
"rate limit", "429", "503", "context deadline exceeded" as a contiguous
substring; a nil error is never retriable. -/
theorem c5_isRetriable_characterization :
    IsRetriable none = false ∧
    ∀ s : String, IsRetriable (some s) = true ↔
      ∃ pat ∈ retriablePatterns, ∃ l r : List Char,
        (strToLower s).data = l ++ pat.data ++ r := by
  refine ⟨rfl, fun s => ?_⟩
  simp only [IsRetriable, List.any_eq_true, strContains, containsC_iff]

theorem bseq_shift (cfg : RetryConfig) (b : ℚ) (j : Nat) :
    bseq cfg (min (b * cfg.Multiplier) cfg.MaxBackoff) j = bseq cfg b (j + 1) := by
  induction j with
  | zero => rfl
  | succ j ih => simp [bseq, ih]

theorem backoffIter_length (cfg : RetryConfig) (b : ℚ) (n : Nat) :
    (backoffIter cfg b n).length = n := by
  induction n generalizing b with
  | zero => rfl
  | succ n ih => simp [backoffIter, ih]

theorem backoffIter_get (cfg : RetryConfig) (b : ℚ) (n i : Nat) (hi : i < n) :
    (backoffIter cfg b n).get? i = some (bseq cfg b i) := by
  induction n generalizing b i with
  | zero => omega
  | succ n ih =>
    cases i with
    | zero => rfl
    | succ i =>
      have := ih (min (b * cfg.Multiplier) cfg.MaxBackoff) i (by omega)
      simpa [backoffIter, bseq_shift] using this

theorem bseq_closed (cfg : RetryConfig) (b : ℚ) (j : Nat)
    (hj : 1 ≤ j) (hM : 1 ≤ cfg.Multiplier) (hC : 0 ≤ cfg.MaxBackoff) :
    bseq cfg b j = min (b * cfg.Multiplier ^ j) cfg.MaxBackoff := by
  induction j with
  | zero => omega
  | succ j ih =>
    rcases Nat.eq_zero_or_pos j with rfl | hj1
    · simp [bseq]
    have hM0 : (0 : ℚ) ≤ cfg.Multiplier := le_trans zero_le_one hM
    have hCC : cfg.MaxBackoff ≤ cfg.MaxBackoff * cfg.Multiplier :=
      le_mul_of_one_le_right hC hM
    calc bseq cfg b (j + 1)
        = min (min (b * cfg.Multiplier ^ j) cfg.MaxBackoff * cfg.Multiplier)
            cfg.MaxBackoff := by rw [bseq, ih hj1]
      _ = min (min (b * cfg.Multiplier ^ j * cfg.Multiplier)
            (cfg.MaxBackoff * cfg.Multiplier)) cfg.MaxBackoff := by
          rw [min_mul_of_nonneg _ _ hM0]
      _ = min (b * cfg.Multiplier ^ (j + 1))
            (min (cfg.MaxBackoff * cfg.Multiplier) cfg.MaxBackoff) := by
          rw [min_assoc, pow_succ, mul_assoc]
      _ = min (b * cfg.Multiplier ^ (j + 1)) cfg.MaxBackoff := by
          rw [min_eq_right hCC]

theorem retryGo_skip (cfg : RetryConfig) (op : Nat → Except String String)
    (cancel : Nat → Bool) (ctxErr : String) (j : Nat) :
    ∀ (f attempt : Nat) (b : ℚ), j ≤ f →
    (∀ i, i < j → ∃ e, op (attempt + i) = Except.error e ∧
        IsRetriable (some e) = true) →
    (∀ i, i < j → cancel (attempt + i) = false) →
    (∀ i, i < j → ((attempt + i : Nat) : Int) < cfg.MaxRetries) →
    retryGo cfg op cancel ctxErr (f + 1) attempt b =
      ⟨(retryGo cfg op cancel ctxErr (f + 1 - j) (attempt + j) (bseq cfg b j)).res,
       backoffIter cfg b j ++
         (retryGo cfg op cancel ctxErr (f + 1 - j) (attempt + j) (bseq cfg b j)).waits,
       j + (retryGo cfg op cancel ctxErr (f + 1 - j) (attempt + j) (bseq cfg b j)).calls⟩ := by
  induction j with
  | zero =>
    intro f attempt b _ _ _ _
    simp [backoffIter, bseq]
  | succ j ih =>
    intro f attempt b hjf hfail hcancel hbreak
    obtain ⟨f, rfl⟩ : ∃ f0, f = f0 + 1 := ⟨f - 1, by omega⟩
    obtain ⟨e, he, hret⟩ := hfail 0 (by omega)
    rw [Nat.add_zero] at he
    have hc0 : cancel attempt = false := by
      have := hcancel 0 (by omega); rwa [Nat.add_zero] at this
    have hb0 : ¬ ((attempt : Int) ≥ cfg.MaxRetries) := by
      have := hbreak 0 (by omega); rw [Nat.add_zero] at this; omega
    have step :
        retryGo cfg op cancel ctxErr (f + 1 + 1) attempt b =
          (let t := retryGo cfg op cancel ctxErr (f + 1) (attempt + 1)
            (min (b * cfg.Multiplier) cfg.MaxBackoff)
           ⟨t.res, b :: t.waits, t.calls + 1⟩) := by
      rw [retryGo, he]
      simp [hret, hb0, hc0]
    rw [step]
    have ihx := ih f (attempt + 1) (min (b * cfg.Multiplier) cfg.MaxBackoff)
      (by omega)
      (fun i hi => by
        have := hfail (i + 1) (by omega)
        rwa [show attempt + (i + 1) = attempt + 1 + i by omega] at this)
      (fun i hi => by
        have := hcancel (i + 1) (by omega)
        rwa [show attempt + (i + 1) = attempt + 1 + i by omega] at this)
      (fun i hi => by
        have := hbreak (i + 1) (by omega)
        rwa [show attempt + (i + 1) = attempt + 1 + i by omega] at this)
    simp only [ihx, bseq_shift]
    have harith1 : attempt + 1 + j = attempt + (j + 1) := by omega
    have harith2 : f + 1 + 1 - (j + 1) = f + 1 - j := by omega
    simp [harith1, harith2, backoffIter, bseq_shift]
    omega

theorem isRetriable_timeout : IsRetriable (some "timeout") = true := by decide

/-- Claim C4, counterexample: with initial backoff B = 10, cap C = 5,
multiplier M = 2 and an operation that keeps failing with "timeout", the
first wait performed by retryWithBackoff is 10 — the uncapped
InitialBackoff (the cap is applied only when backoff is updated after a
completed wait, retry.go:62,91) — whereas the claim requires
min(B·M^0, C) = 5. -/
theorem c4_counterexample :
    (retryWithBackoff (RetryConfig.mk 2 10 5 2) (fun _ => Except.error "timeout")
        (fun _ => false) "context canceled").waits.get? 0 = some 10 ∧
    min ((10 : ℚ) * 2 ^ (1 - 1)) 5 = 5 ∧ ((10 : ℚ)) ≠ 5 := by
  refine ⟨?_, by norm_num, by norm_num⟩
  have h2 : ((2 : Int) + 1).toNat = 3 := by decide
  simp only [retryWithBackoff, h2]
  rw [retryGo]
  simp [isRetriable_timeout]

/-- Claim C4, amended: for every retry configuration with multiplier at
least 1 and nonnegative cap, and every operation that fails k consecutive
times with retriable failures (k within the retry budget, no cancellation),
the first wait equals the uncapped initial backoff B, and the k-th wait for
k at least 2 equals min(B·M^(k-1), C). -/
theorem c4_kth_wait (cfg : RetryConfig) (op : Nat → Except String String)
    (cancel : Nat → Bool) (ctxErr : String) (k : Nat)
    (hk : 1 ≤ k) (hM : 1 ≤ cfg.Multiplier) (hC : 0 ≤ cfg.MaxBackoff)
    (hbudget : (k : Int) ≤ cfg.MaxRetries)
    (hfail : ∀ i, i < k → ∃ e, op i = Except.error e ∧ IsRetriable (some e) = true)
    (hcancel : ∀ i, i < k → cancel i = false) :
    (retryWithBackoff cfg op cancel ctxErr).waits.get? (k - 1) =
      some (if k = 1 then cfg.InitialBackoff
            else min (cfg.InitialBackoff * cfg.Multiplier ^ (k - 1)) cfg.MaxBackoff) := by
  have hMR : (1 : Int) ≤ cfg.MaxRetries := le_trans (by exact_mod_cast hk) hbudget
  have hfuel : (cfg.MaxRetries + 1).toNat = cfg.MaxRetries.toNat + 1 := by omega
  have hkf : k ≤ cfg.MaxRetries.toNat := by omega
  have hskip := retryGo_skip cfg op cancel ctxErr k cfg.MaxRetries.toNat 0
    cfg.InitialBackoff hkf
    (fun i hi => by simpa using hfail i hi)
    (fun i hi => by simpa using hcancel i hi)
    (fun i hi => by push_cast; omega)
  rw [retryWithBackoff, hfuel, hskip]
  have hlt : k - 1 < (backoffIter cfg cfg.InitialBackoff k).length := by
    rw [backoffIter_length]; omega
  rw [List.get?_append hlt, backoffIter_get cfg cfg.InitialBackoff k (k - 1) (by omega)]
  rcases Nat.eq_or_lt_of_le hk with h1 | h2
  · simp [← h1, bseq]
  · rw [if_neg (by omega), bseq_closed cfg cfg.InitialBackoff (k - 1) (by omega) hM hC]

/-- Witness for c4_kth_wait at a concrete instance: B = 1, C = 5, M = 2,
budget 3, two consecutive "timeout" failures; the second wait is
min(1·2, 5) = 2. -/
theorem c4_kth_wait_witness :
    (1 ≤ 2) ∧ (1 ≤ (2 : ℚ)) ∧ ((0 : ℚ) ≤ 5) ∧ (((2 : Nat) : Int) ≤ 3) ∧
    (retryWithBackoff (RetryConfig.mk 3 1 5 2) (fun _ => Except.error "timeout")
        (fun _ => false) "context canceled").waits.get? (2 - 1) =
      some (if 2 = 1 then (1 : ℚ) else min ((1 : ℚ) * 2 ^ (2 - 1)) 5) :=
  ⟨by norm_num, by norm_num, by norm_num, by norm_num,
   c4_kth_wait (RetryConfig.mk 3 1 5 2) (fun _ => Except.error "timeout")
     (fun _ => false) "context canceled" 2 (by norm_num) (by norm_num)
     (by norm_num) (by norm_num)
     (fun i _ => ⟨"timeout", rfl, isRetriable_timeout⟩)
     (fun i _ => rfl)⟩

/-- Claim C7: maxRetries = 0 executes the operation exactly once, success
or failure, with no backoff wait; likewise the orchestrator dispatch with
no configured policy or a nonpositive budget executes exactly once. -/
theorem c7_single_execution (cfg : RetryConfig) (rc : Option RetryConfig)
    (op : Nat → Except String String) (cancel : Nat → Bool) (ctxErr : String)
    (h0 : cfg.MaxRetries = 0)
    (hrc : rc = none ∨ ∃ c, rc = some c ∧ c.MaxRetries ≤ 0) :
    ((retryWithBackoff cfg op cancel ctxErr).calls = 1 ∧
     (retryWithBackoff cfg op cancel ctxErr).waits = []) ∧
    ((executeOperation rc op cancel ctxErr).calls = 1 ∧
     (executeOperation rc op cancel ctxErr).waits = []) := by
  constructor
  · have hfuel : (cfg.MaxRetries + 1).toNat = 1 := by omega
    rw [retryWithBackoff, hfuel, retryGo]
    rcases hop : op 0 with e | v
    · by_cases hr : IsRetriable (some e) = true
      · simp [hr, h0]
      · simp [Bool.not_eq_true] at hr
        simp [hr]
    · simp
  · rcases hrc with rfl | ⟨c, rfl, hc⟩
    · rcases hop : op 0 with e | v <;> simp [executeOperation, hop]
    · have : ¬ (0 < c.MaxRetries) := by omega
      rcases hop : op 0 with e | v <;> simp [executeOperation, hop, this]

/-- Witness for c7_single_execution: a zero-budget configuration and an
unconfigured policy, the operation succeeding. -/
theorem c7_single_execution_witness :
    ((RetryConfig.mk 0 1 5 2).MaxRetries = 0) ∧
    ((retryWithBackoff (RetryConfig.mk 0 1 5 2) (fun _ => Except.ok "v")
        (fun _ => false) "context canceled").calls = 1 ∧
     (retryWithBackoff (RetryConfig.mk 0 1 5 2) (fun _ => Except.ok "v")
        (fun _ => false) "context canceled").waits = []) ∧
    ((executeOperation none (fun _ => Except.ok "v")
        (fun _ => false) "context canceled").calls = 1 ∧
     (executeOperation none (fun _ => Except.ok "v")
        (fun _ => false) "context canceled").waits = []) :=
  ⟨rfl,
   (c7_single_execution (RetryConfig.mk 0 1 5 2) none (fun _ => Except.ok "v")
     (fun _ => false) "context canceled" rfl (Or.inl rfl)).1,
   (c7_single_execution (RetryConfig.mk 0 1 5 2) none (fun _ => Except.ok "v")
     (fun _ => false) "context canceled" rfl (Or.inl rfl)).2⟩

/-- Claim C8: when the cancellation signal fires while the wait after a
retriable failure at attempt a is pending (a within the budget, the earlier
waits having completed), retryWithBackoff stops at once and reports the
context error, not the prior operation failure, with no further operation
calls: exactly a+1 executions, a completed waits, value nil, attempts a. -/
theorem c8_cancellation_during_wait (cfg : RetryConfig)
    (op : Nat → Except String String) (cancel : Nat → Bool) (ctxErr : String)
    (a : Nat)
    (hfail : ∀ i, i ≤ a → ∃ e, op i = Except.error e ∧ IsRetriable (some e) = true)
    (hcancelBefore : ∀ i, i < a → cancel i = false)
    (hcancelAt : cancel a = true)
    (hbudget : (a : Int) < cfg.MaxRetries) :
    retryWithBackoff cfg op cancel ctxErr =
      ⟨⟨none, (a : Int), some ctxErr⟩,
       backoffIter cfg cfg.InitialBackoff a, a + 1⟩ := by
  have hMR : (0 : Int) ≤ cfg.MaxRetries := by omega
  have hfuel : (cfg.MaxRetries + 1).toNat = cfg.MaxRetries.toNat + 1 := by omega
  have haf : a ≤ cfg.MaxRetries.toNat := by omega
  have hskip := retryGo_skip cfg op cancel ctxErr a cfg.MaxRetries.toNat 0
    cfg.InitialBackoff haf
    (fun i hi => by simpa using hfail i (by omega))
    (fun i hi => by simpa using hcancelBefore i hi)
    (fun i hi => by push_cast; omega)
  rw [retryWithBackoff, hfuel, hskip]
  obtain ⟨g, hg⟩ : ∃ g, cfg.MaxRetries.toNat + 1 - a = g + 1 :=
    ⟨cfg.MaxRetries.toNat - a, by omega⟩
  rw [hg]
  obtain ⟨e, he, hret⟩ := hfail a le_rfl
  rw [retryGo]
  simp only [Nat.zero_add, he]
  have hnb : ¬ ((a : Int) ≥ cfg.MaxRetries) := by omega
  simp [hret, hnb, hcancelAt]

/-- Witness for c8_cancellation_during_wait: cancellation fires during the
very first wait; the run reports the context error after one execution. -/
theorem c8_cancellation_witness :
    ((fun _ : Nat => true) 0 = true) ∧ (((0 : Nat) : Int) < 2) ∧
    retryWithBackoff (RetryConfig.mk 2 1 5 2) (fun _ => Except.error "timeout")
        (fun _ => true) "context canceled" =
      ⟨⟨none, ((0 : Nat) : Int), some "context canceled"⟩,
       backoffIter (RetryConfig.mk 2 1 5 2) (RetryConfig.mk 2 1 5 2).InitialBackoff 0,
       0 + 1⟩ :=
  ⟨rfl, by norm_num,
   c8_cancellation_during_wait (RetryConfig.mk 2 1 5 2)
     (fun _ => Except.error "timeout") (fun _ => true) "context canceled" 0
     (fun i _ => ⟨"timeout", rfl, isRetriable_timeout⟩)
     (fun i hi => absurd hi (Nat.not_lt_zero i))
     rfl (by norm_num)⟩

/-- Claim C2, counterexample: the interleaving run-start, Close (both
halves), loop-exit is a valid program order — the deferred restore of Run
(agent.go:286-290) runs when the loop goroutine exits, which can happen
after Close has completed — and it drives the state Ready → Running →
Stopping → Stopped → Ready.  A state reached as Stopped subsequently
changes to Ready, so Stopped is not terminal as claimed. -/
theorem c2_counterexample :
    runActions State.ready
        [LifeAction.runStart, LifeAction.closeBegin, LifeAction.closeEnd] =
      State.stopped ∧
    runActions State.ready
        [LifeAction.runStart, LifeAction.closeBegin, LifeAction.closeEnd,
         LifeAction.loopExit] = State.ready := by
  constructor <;> rfl

/-- Claim C2, amended: the state machine admits Ready→Running on loop
start, Running→Ready on loop completion, Ready|Running→Stopping→Stopped on
shutdown, and run requests in Stopping/Stopped leave the state unchanged;
Stopped is preserved by every action except the unconditional loop-exit
restore, which sets the state to Ready even from Stopped (a loop that
exits after Close completes does restore the state to Ready). -/
theorem c2_transitions :
    (∀ acts : List LifeAction, LifeAction.loopExit ∉ acts →
      runActions State.stopped acts = State.stopped) ∧
    stepState State.ready LifeAction.runStart = State.running ∧
    stepState State.running LifeAction.loopExit = State.ready ∧
    stepState State.ready LifeAction.closeBegin = State.stopping ∧
    stepState State.running LifeAction.closeBegin = State.stopping ∧
    stepState State.stopping LifeAction.closeEnd = State.stopped ∧
    stepState State.stopping LifeAction.runStart = State.stopping ∧
    stepState State.stopped LifeAction.runStart = State.stopped ∧
    (∀ s : State, stepState s LifeAction.loopExit = State.ready) := by
  refine ⟨?_, rfl, rfl, rfl, rfl, rfl, rfl, rfl, fun s => rfl⟩
  intro acts h
  induction acts with
  | nil => rfl
  | cons a t ih =>
    have ha : a ≠ LifeAction.loopExit := fun hc => h (hc ▸ List.mem_cons_self a t)
    have hstep : stepState State.stopped a = State.stopped := by
      cases a with
      | runStart => rfl
      | loopExit => exact absurd rfl ha
      | closeBegin => rfl
      | closeEnd => rfl
    have ht : LifeAction.loopExit ∉ t := fun hc => h (List.mem_cons_of_mem a hc)
    calc runActions State.stopped (a :: t)
        = runActions (stepState State.stopped a) t := rfl
      _ = runActions State.stopped t := by rw [hstep]
      _ = State.stopped := ih ht

/-- Witness for c2_transitions: with no loop-exit action pending, a
stopped agent stays stopped across further run-start and Close attempts. -/
theorem c2_transitions_witness :
    (LifeAction.loopExit ∉
      [LifeAction.runStart, LifeAction.closeBegin, LifeAction.closeEnd]) ∧
    runActions State.stopped
        [LifeAction.runStart, LifeAction.closeBegin, LifeAction.closeEnd] =
      State.stopped :=
  ⟨by decide,
   c2_transitions.1 [LifeAction.runStart, LifeAction.closeBegin,
     LifeAction.closeEnd] (by decide)⟩

theorem executeTools_foldl (env : ToolEnv) (l : List ToolCall)
    (a : List ToolResultBlock) (b : List String) (c : List Event) :
    l.foldl
      (fun acc tc =>
        let blk := runToolCall env tc
        (acc.1 ++ [blk], acc.2.1 ++ [tc.name],
         acc.2.2 ++ [Event.toolResult blk.toolUseID blk.content blk.isError]))
      (a, b, c) =
      (a ++ l.map (runToolCall env), b ++ l.map (fun tc => tc.name),
       c ++ l.map (fun tc =>
         Event.toolResult (runToolCall env tc).toolUseID
           (runToolCall env tc).content (runToolCall env tc).isError)) := by
  induction l generalizing a b c with
  | nil => simp
  | cons tc t ih => simp [ih]

/-- Claim C3, counterexample: with no tool registry configured
(tool_execution.go:18-21) a batch of one call yields zero result blocks
and zero used-name entries — the call is silently dropped, not answered
with an error block. -/
theorem c3_counterexample :
    (executeToolsWithEvents
        ⟨fun _ => true, fun _ => Except.ok "", fun _ _ => OpOutcome.finished none none,
         fun _ => ""⟩
        false [⟨"call-1", "calc", ToolInput.nilInput⟩]).1.length = 0 ∧
    (executeToolsWithEvents
        ⟨fun _ => true, fun _ => Except.ok "", fun _ _ => OpOutcome.finished none none,
         fun _ => ""⟩
        false [⟨"call-1", "calc", ToolInput.nilInput⟩]).2.1.length = 0 ∧
    ([(⟨"call-1", "calc", ToolInput.nilInput⟩ : ToolCall)]).length = 1 := by
  refine ⟨rfl, rfl, rfl⟩

/-- Claim C3, amended: provided a tool registry is configured, the
orchestrator returns, for a batch of N calls, exactly N result blocks, N
used-name entries and N result events, one per submitted call in submission
order, each block keeping the id of its call, for every combination of
per-call outcomes (not registered, input serialization failure, panic,
execution error, success); with no registry configured it returns no
blocks, no names and no events. -/
theorem c3_batch_shape (env : ToolEnv) (toolCalls : List ToolCall) :
    (executeToolsWithEvents env true toolCalls).1 =
      toolCalls.map (runToolCall env) ∧
    (executeToolsWithEvents env true toolCalls).2.1 =
      toolCalls.map (fun tc => tc.name) ∧
    (executeToolsWithEvents env true toolCalls).1.length = toolCalls.length ∧
    (executeToolsWithEvents env true toolCalls).2.1.length = toolCalls.length ∧
    (executeToolsWithEvents env true toolCalls).2.2.length = toolCalls.length ∧
    (∀ tc : ToolCall, (runToolCall env tc).toolUseID = tc.id) ∧
    executeToolsWithEvents env false toolCalls = ([], [], []) := by
  have h := executeTools_foldl env toolCalls [] [] []
  have hid : ∀ tc : ToolCall, (runToolCall env tc).toolUseID = tc.id := by
    intro tc
    rw [runToolCall]
    split
    · rfl
    · split
      · rfl
      · split <;> rfl
  refine ⟨?_, ?_, ?_, ?_, ?_, hid, rfl⟩ <;>
    simp [executeToolsWithEvents, h]

/-- The combined delta of a fragment sequence: unfragmented delivery of the
last nonempty id, the last nonempty name, and the concatenated argument
text. -/
def combinedDelta (j : Int) (ds : List ToolCallDelta) : ToolCallDelta :=
  ⟨j, lastNonEmptyD "" (ds.map ToolCallDelta.id),
   lastNonEmptyD "" (ds.map ToolCallDelta.name),
   concatAll (ds.map ToolCallDelta.argumentsDelta)⟩

theorem foldl_updateSlot (ds : List ToolCallDelta) :
    ∀ s : Slot, ds.foldl updateSlot s =
      ⟨lastNonEmptyD s.id (ds.map ToolCallDelta.id),
       lastNonEmptyD s.name (ds.map ToolCallDelta.name),
       s.args ++ concatAll (ds.map ToolCallDelta.argumentsDelta)⟩ := by
  induction ds with
  | nil =>
    intro s
    simp [lastNonEmptyD, concatAll, String.append_empty]
  | cons d t ih =>
    intro s
    have harg :
        (updateSlot s d).args ++ concatAll (t.map ToolCallDelta.argumentsDelta) =
          s.args ++ concatAll ((d :: t).map ToolCallDelta.argumentsDelta) := by
      simp only [updateSlot, List.map_cons, concatAll]
      by_cases hd : d.argumentsDelta = ""
      · simp [hd, String.empty_append]
      · simp [hd, String.append_assoc]
    calc (d :: t).foldl updateSlot s = t.foldl updateSlot (updateSlot s d) := rfl
      _ = ⟨lastNonEmptyD (updateSlot s d).id (t.map ToolCallDelta.id),
           lastNonEmptyD (updateSlot s d).name (t.map ToolCallDelta.name),
           (updateSlot s d).args ++ concatAll (t.map ToolCallDelta.argumentsDelta)⟩ :=
        ih (updateSlot s d)
      _ = _ := by
        rw [harg]
        rfl

theorem processChunks_singleKey (j : Int) (ds : List ToolCallDelta) :
    ∀ (st : AggState) (s : Slot), (∀ d ∈ ds, d.index = j) →
    st.map = [(j, s)] →
    (ds.map (fun d => Chunk.toolCall (some d))).foldl processChunk st =
      { st with map := [(j, ds.foldl updateSlot s)] } := by
  induction ds with
  | nil => intro st s _ hm; simp [← hm]
  | cons d t ih =>
    intro st s hidx hm
    have hdj : d.index = j := hidx d (List.mem_cons_self d t)
    have hstep :
        processChunk st (Chunk.toolCall (some d)) =
          { st with map := [(j, updateSlot s d)] } := by
      simp [processChunk, hm, hdj, mapFind, mapInsert]
    calc ((d :: t).map (fun d => Chunk.toolCall (some d))).foldl processChunk st
        = (t.map (fun d => Chunk.toolCall (some d))).foldl processChunk
            (processChunk st (Chunk.toolCall (some d))) := rfl
      _ = { st with map := [(j, (d :: t).foldl updateSlot s)] } := by
          rw [hstep]
          exact ih { st with map := [(j, updateSlot s d)] } (updateSlot s d)
            (fun x hx => hidx x (List.mem_cons_of_mem d hx)) rfl

theorem processChunks_singleIndex (j : Int) (d : ToolCallDelta)
    (t : List ToolCallDelta) (hidx : ∀ x ∈ d :: t, x.index = j) :
    processChunks ((d :: t).map (fun x => Chunk.toolCall (some x))) =
      ⟨"", [(j, (d :: t).foldl updateSlot emptySlot)], []⟩ := by
  have hdj : d.index = j := hidx d (List.mem_cons_self d t)
  have hfirst :
      processChunk initAgg (Chunk.toolCall (some d)) =
        ⟨"", [(j, updateSlot emptySlot d)], []⟩ := by
    simp [processChunk, initAgg, mapFind, mapInsert, hdj]
  calc processChunks ((d :: t).map (fun x => Chunk.toolCall (some x)))
      = (t.map (fun x => Chunk.toolCall (some x))).foldl processChunk
          (processChunk initAgg (Chunk.toolCall (some d))) := rfl
    _ = ⟨"", [(j, (d :: t).foldl updateSlot emptySlot)], []⟩ := by
        rw [hfirst]
        exact processChunks_singleKey j t ⟨"", [(j, updateSlot emptySlot d)], []⟩
          (updateSlot emptySlot d)
          (fun x hx => hidx x (List.mem_cons_of_mem d hx)) rfl

theorem foldl_updateSlot_combined (j : Int) (ds : List ToolCallDelta) :
    ds.foldl updateSlot emptySlot = updateSlot emptySlot (combinedDelta j ds) := by
  rw [foldl_updateSlot ds emptySlot]
  show _ = updateSlot ⟨"", "", ""⟩ _
  rw [updateSlot]
  refine congrArg₂ (fun a b => Slot.mk a b _) ?_ ?_ |>.trans (congrArg _ ?_)
  · by_cases h : lastNonEmptyD "" (ds.map ToolCallDelta.id) = "" <;>
      simp [combinedDelta, emptySlot, h]
  · by_cases h : lastNonEmptyD "" (ds.map ToolCallDelta.name) = "" <;>
      simp [combinedDelta, emptySlot, h]
  · by_cases h : concatAll (ds.map ToolCallDelta.argumentsDelta) = "" <;>
      simp [combinedDelta, emptySlot, h, String.empty_append]

/-- Claim C6: for every nonempty sequence of tool-call deltas addressed to
a single index, in whatever fragmentation and arrival order, the streaming
call finalizes exactly the message produced by a single unfragmented
delivery of the last nonempty id, the last nonempty name and the full
concatenated argument text; and accumulation only ever adds information —
an id or name delta overwrites the stored value (or leaves it), an
argument delta appends to the buffer, nothing retracts prior content. -/
theorem c6_fragmentation_invariance (j : Int) (ds : List ToolCallDelta)
    (hne : ds ≠ []) (hidx : ∀ d ∈ ds, d.index = j) :
    callProviderStreaming (ds.map (fun d => Chunk.toolCall (some d))) =
      callProviderStreaming [Chunk.toolCall (some (combinedDelta j ds))] ∧
    ∀ (s : Slot) (d : ToolCallDelta),
      (∃ t, (updateSlot s d).args = s.args ++ t) ∧
      ((updateSlot s d).id = s.id ∨ (updateSlot s d).id = d.id) ∧
      ((updateSlot s d).name = s.name ∨ (updateSlot s d).name = d.name) := by
  constructor
  · obtain ⟨d, t, rfl⟩ : ∃ d t, ds = d :: t := by
      cases ds with
      | nil => exact absurd rfl hne
      | cons d t => exact ⟨d, t, rfl⟩
    have hL := processChunks_singleIndex j d t hidx
    have hR := processChunks_singleIndex j (combinedDelta j (d :: t)) []
      (fun x hx => by
        rcases List.mem_singleton.mp hx with rfl
        rfl)
    have hslot := foldl_updateSlot_combined j (d :: t)
    rw [callProviderStreaming, callProviderStreaming, hL]
    rw [show ([combinedDelta j (d :: t)].map (fun x => Chunk.toolCall (some x))) =
      [Chunk.toolCall (some (combinedDelta j (d :: t)))] from rfl] at hR
    rw [hR]
    simp only [List.foldl_cons, List.foldl_nil] at hslot ⊢
    rw [hslot]
  · intro s d
    refine ⟨?_, ?_, ?_⟩
    · by_cases h : d.argumentsDelta = ""
      · exact ⟨"", by simp [updateSlot, h, String.append_empty]⟩
      · exact ⟨d.argumentsDelta, by simp [updateSlot, h]⟩
    · by_cases h : d.id = "" <;> simp [updateSlot, h]
    · by_cases h : d.name = "" <;> simp [updateSlot, h]

/-- Witness for c6_fragmentation_invariance: the argument text "ab" split
into fragments "a" and "b" at index 0 finalizes like the single delivery,
and an update appends to the argument buffer. -/
theorem c6_fragmentation_witness :
    (([⟨0, "id-1", "calc", "a"⟩, ⟨0, "", "", "b"⟩] : List ToolCallDelta) ≠ []) ∧
    callProviderStreaming
        (([⟨0, "id-1", "calc", "a"⟩, ⟨0, "", "", "b"⟩] : List ToolCallDelta).map
          (fun d => Chunk.toolCall (some d))) =
      callProviderStreaming
        [Chunk.toolCall (some (combinedDelta 0
          [⟨0, "id-1", "calc", "a"⟩, ⟨0, "", "", "b"⟩]))] ∧
    (∃ t, (updateSlot emptySlot ⟨0, "x", "y", "z"⟩).args = emptySlot.args ++ t) :=
  ⟨by decide,
   (c6_fragmentation_invariance 0 [⟨0, "id-1", "calc", "a"⟩, ⟨0, "", "", "b"⟩]
     (by decide) (by decide)).1,
   ((c6_fragmentation_invariance 0 [⟨0, "id-1", "calc", "a"⟩, ⟨0, "", "", "b"⟩]
     (by decide) (by decide)).2 emptySlot ⟨0, "x", "y", "z"⟩).1⟩

/-- The keys of the accumulation map. -/
def mapKeys (m : List (Int × Slot)) : List Int := m.map Prod.fst

theorem mapKeys_mapInsert (m : List (Int × Slot)) (k : Int) (v : Slot)
    (k0 : Int) :
    k0 ∈ mapKeys (mapInsert m k v) ↔ (k0 ∈ mapKeys m ∨ k0 = k) := by
  induction m with
  | nil => simp [mapInsert, mapKeys]
  | cons p t ih =>
    rcases p with ⟨kp, vp⟩
    by_cases h : kp = k
    · subst h
      simp [mapInsert, mapKeys]
      tauto
    · simp only [mapInsert, if_neg h, mapKeys, List.map_cons, List.mem_cons]
      rw [show (t.map Prod.fst) = mapKeys t from rfl] at *
      rw [show ((mapInsert t k v).map Prod.fst) = mapKeys (mapInsert t k v) from rfl]
      rw [ih]
      tauto

theorem mapKeys_processChunks (cs : List Chunk) :
    ∀ (st : AggState) (k : Int),
    (k ∈ mapKeys (cs.foldl processChunk st).map ↔
      (k ∈ mapKeys st.map ∨ k ∈ observedIndices cs)) := by
  induction cs with
  | nil => intro st k; simp [observedIndices]
  | cons c t ih =>
    intro st k
    rw [show ((c :: t).foldl processChunk st) = t.foldl processChunk (processChunk st c)
      from rfl, ih]
    cases c with
    | text d =>
      by_cases h : d = "" <;>
        simp [processChunk, h, observedIndices, List.filterMap_cons]
    | reasoning d =>
      by_cases h : d = "" <;>
        simp [processChunk, h, observedIndices, List.filterMap_cons]
    | other => simp [processChunk, observedIndices, List.filterMap_cons]
    | toolCall d =>
      cases d with
      | none => simp [processChunk, observedIndices, List.filterMap_cons]
      | some d =>
        simp only [processChunk, observedIndices, List.filterMap_cons,
          mapKeys_mapInsert, List.mem_cons]
        rw [show (List.filterMap (fun c =>
          match c with
          | Chunk.toolCall (some d) => some d.index
          | _ => none) t) = observedIndices t from rfl]
        tauto

theorem filterMap_allSome {α β : Type} (l : List α) (f : α → Option β)
    (h : ∀ a ∈ l, (f a).isSome = true) :
    (l.filterMap f).length = l.length ∧
    ∀ i : Nat, (l.filterMap f).get? i = (l.get? i).bind f := by
  induction l with
  | nil => exact ⟨rfl, fun i => by cases i <;> rfl⟩
  | cons a t ih =>
    obtain ⟨b, hb⟩ := Option.isSome_iff_exists.mp (h a (List.mem_cons_self a t))
    obtain ⟨hlen, hget⟩ := ih (fun x hx => h x (List.mem_cons_of_mem a hx))
    have hfm : (a :: t).filterMap f = b :: t.filterMap f := by
      rw [List.filterMap_cons, hb]
    refine ⟨by simp [hfm, hlen], fun i => ?_⟩
    cases i with
    | zero => simp [hfm, hb]
    | succ i => simpa [hfm] using hget i

theorem getToolCalls_callProviderStreaming (cs : List Chunk) :
    getToolCalls (callProviderStreaming cs).2 =
      finalizeToolCalls (processChunks cs).map := by
  rw [callProviderStreaming, getToolCalls]
  simp only [List.filterMap_append, List.filterMap_map]
  have hcomp : ((fun b =>
      match b with
      | ContentBlock.toolCallBlock tc => some tc
      | _ => none) ∘ ContentBlock.toolCallBlock) =
      (some : ToolCall → Option ToolCall) := funext fun tc => rfl
  by_cases h : (processChunks cs).text.length > 0 <;>
    simp [h, List.filterMap_cons, hcomp, List.filterMap_some]

/-- Claim C1, counterexample: a single tool-call delta at index 1 (a
noncontiguous index set) is accumulated into a slot, yet finalization
(part_002:156, which iterates i over 0..len(map)-1) emits no tool call at
all: the finalized assistant message contains no call for observed index 1. -/
theorem c1_counterexample :
    observedIndices [Chunk.toolCall (some ⟨1, "id1", "tool", "ab"⟩)] = [1] ∧
    (processChunks [Chunk.toolCall (some ⟨1, "id1", "tool", "ab"⟩)]).map.length = 1 ∧
    getToolCalls
        (callProviderStreaming [Chunk.toolCall (some ⟨1, "id1", "tool", "ab"⟩)]).2 =
      [] := by
  refine ⟨rfl, rfl, by decide⟩

/-- Claim C1, amended: whenever the set of observed delta indices is
exactly the contiguous range 0..m-1 (m the number of distinct observed
indices, equal to the accumulation map size), the finalized assistant
message contains exactly one tool call per distinct observed index,
arranged in ascending numeric index order (the i-th finalized call is the
finalization of the slot of index i), regardless of the arrival order of
the deltas; observed indices outside that range are dropped (see the
counterexample). -/
theorem c1_ascending_contiguous (cs : List Chunk)
    (H : ∀ k : Int, k ∈ observedIndices cs ↔
        (0 ≤ k ∧ k < ((processChunks cs).map.length : Int))) :
    (getToolCalls (callProviderStreaming cs).2).length =
      (processChunks cs).map.length ∧
    (∀ i : Nat, i < (processChunks cs).map.length →
      (getToolCalls (callProviderStreaming cs).2).get? i =
        (mapFind (processChunks cs).map (i : Int)).map slotToCall) ∧
    (∀ k : Int, k ∈ mapKeys (processChunks cs).map ↔ k ∈ observedIndices cs) := by
  have hkeys : ∀ k : Int, k ∈ mapKeys (processChunks cs).map ↔ k ∈ observedIndices cs := by
    intro k
    have := mapKeys_processChunks cs initAgg k
    simpa [processChunks, initAgg, mapKeys] using this
  have hsome : ∀ i ∈ List.range (processChunks cs).map.length,
      ((mapFind (processChunks cs).map (i : Int)).map slotToCall).isSome = true := by
    intro i hi
    rw [List.mem_range] at hi
    have hmem : (i : Int) ∈ mapKeys (processChunks cs).map := by
      rw [hkeys]
      rw [H]
      constructor
      · exact Int.ofNat_nonneg i
      · exact_mod_cast hi
    rw [mapKeys] at hmem
    obtain ⟨⟨k, v⟩, hkv, hk⟩ := List.mem_map.mp hmem
    have hfind : (List.find? (fun p => p.1 = (i : Int))
        (processChunks cs).map).isSome = true :=
      List.find?_isSome.mpr ⟨(k, v), hkv, by simpa using hk⟩
    rcases Option.isSome_iff_exists.mp hfind with ⟨p, hp⟩
    simp [mapFind, hp]
  obtain ⟨hlen, hget⟩ :=
    filterMap_allSome (List.range (processChunks cs).map.length)
      (fun i => (mapFind (processChunks cs).map (i : Int)).map slotToCall) hsome
  have hfin : finalizeToolCalls (processChunks cs).map =
      (List.range (processChunks cs).map.length).filterMap
        (fun i : Nat => (mapFind (processChunks cs).map (i : Int)).map slotToCall) := rfl
  refine ⟨?_, ?_, hkeys⟩
  · rw [getToolCalls_callProviderStreaming, hfin, hlen, List.length_range]
  · intro i hi
    rw [getToolCalls_callProviderStreaming, hfin, hget i,
      List.get?_range hi]
    rfl

/-- Witness for c1_ascending_contiguous: two deltas at indices 1 and 0
(arriving out of order) finalize into two calls, index 0 first. -/
theorem c1_ascending_witness :
    (getToolCalls (callProviderStreaming
        [Chunk.toolCall (some ⟨1, "b", "u", "y"⟩),
         Chunk.toolCall (some ⟨0, "a", "t", "x"⟩)]).2).length =
      (processChunks
        [Chunk.toolCall (some ⟨1, "b", "u", "y"⟩),
         Chunk.toolCall (some ⟨0, "a", "t", "x"⟩)]).map.length ∧
    (getToolCalls (callProviderStreaming
        [Chunk.toolCall (some ⟨1, "b", "u", "y"⟩),
         Chunk.toolCall (some ⟨0, "a", "t", "x"⟩)]).2).get? 0 =
      (mapFind (processChunks
        [Chunk.toolCall (some ⟨1, "b", "u", "y"⟩),
         Chunk.toolCall (some ⟨0, "a", "t", "x"⟩)]).map ((0 : Nat) : Int)).map
        slotToCall :=
  ⟨(c1_ascending_contiguous
      [Chunk.toolCall (some ⟨1, "b", "u", "y"⟩),
       Chunk.toolCall (some ⟨0, "a", "t", "x"⟩)]
      (by intro k; constructor
          · intro hk
            rcases List.mem_cons.mp hk with rfl | hk
            · exact ⟨by norm_num, by decide⟩
            · rcases List.mem_singleton.mp hk with rfl
              exact ⟨le_rfl, by decide⟩
          · intro ⟨h0, h2⟩
            have h2n : k < 2 := by
              have : ((processChunks
                [Chunk.toolCall (some ⟨1, "b", "u", "y"⟩),
                 Chunk.toolCall (some ⟨0, "a", "t", "x"⟩)]).map.length : Int) = 2 := by
                decide
              omega
            interval_cases k
            · exact List.mem_cons_of_mem _ (List.mem_singleton.mpr rfl)
            · exact List.mem_cons_self _ _)).1,
   (c1_ascending_contiguous
      [Chunk.toolCall (some ⟨1, "b", "u", "y"⟩),
       Chunk.toolCall (some ⟨0, "a", "t", "x"⟩)]
      (by intro k; constructor
          · intro hk
            rcases List.mem_cons.mp hk with rfl | hk
            · exact ⟨by norm_num, by decide⟩
            · rcases List.mem_singleton.mp hk with rfl
              exact ⟨le_rfl, by decide⟩
          · intro ⟨h0, h2⟩
            have h2n : k < 2 := by
              have : ((processChunks
                [Chunk.toolCall (some ⟨1, "b", "u", "y"⟩),
                 Chunk.toolCall (some ⟨0, "a", "t", "x"⟩)]).map.length : Int) = 2 := by
                decide
              omega
            interval_cases k
            · exact List.mem_cons_of_mem _ (List.mem_singleton.mpr rfl)
            · exact List.mem_cons_self _ _)).2.1 0 (by decide)⟩

theorem countP_toolCallEvents (tcs : List ToolCall) :
    (tcs.map Event.toolCall).countP isTerminal = 0 := by
  rw [List.countP_eq_zero]
  intro e he
  obtain ⟨tc, _, rfl⟩ := List.mem_map.mp he
  simp [isTerminal]

theorem countP_execEvents (env : ToolEnv) (b : Bool) (tcs : List ToolCall) :
    (executeToolsWithEvents env b tcs).2.2.countP isTerminal = 0 := by
  cases b with
  | false => rfl
  | true =>
    have h := executeTools_foldl env tcs [] [] []
    rw [executeToolsWithEvents]
    simp only [Bool.true_eq_false, if_false, h]
    rw [List.countP_eq_zero]
    intro e he
    simp only [List.nil_append] at he
    obtain ⟨tc, _, rfl⟩ := List.mem_map.mp he
    simp [isTerminal]

theorem countP_aggEvents (cs : List Chunk) :
    ∀ st : AggState,
      ((cs.foldl processChunk st).events).countP isTerminal =
        (st.events).countP isTerminal := by
  induction cs with
  | nil => intro st; rfl
  | cons c t ih =>
    intro st
    rw [show ((c :: t).foldl processChunk st) = t.foldl processChunk (processChunk st c)
      from rfl, ih]
    cases c with
    | text d =>
      by_cases h : d = "" <;>
        simp [processChunk, h, List.countP_append, isTerminal]
    | reasoning d =>
      by_cases h : d = "" <;>
        simp [processChunk, h, List.countP_append, isTerminal]
    | other => rfl
    | toolCall d => cases d <;> rfl

theorem runLoopBlocking_terminal (env : ToolEnv) (hasRegistry : Bool) :
    ∀ (script : List BStep) (hist : List Message) (tu : List String)
      (sc : Nat) (out : LoopOut),
      runLoopBlocking env hasRegistry script hist tu sc = some out →
      (out.result.isSome = true → out.events.countP isTerminal = 0) ∧
      (out.result = none → out.events.countP isTerminal = 1 ∧
        ∃ es e, out.events = es ++ [e] ∧ isTerminal e = true) := by
  intro script
  induction script with
  | nil => intro hist tu sc out h; exact absurd h (by simp [runLoopBlocking])
  | cons step rest ih =>
    intro hist tu sc out h
    cases step with
    | cancelled =>
      rw [runLoopBlocking] at h
      injection h with h
      subst h
      exact ⟨fun hc => by simp at hc,
        fun _ => ⟨rfl, [], Event.error ctxCanceledErr, rfl, rfl⟩⟩
    | stopped =>
      rw [runLoopBlocking] at h
      injection h with h
      subst h
      exact ⟨fun hc => by simp at hc,
        fun _ => ⟨rfl, [], Event.error errAgentStopped, rfl, rfl⟩⟩
    | provErr e =>
      rw [runLoopBlocking] at h
      injection h with h
      subst h
      exact ⟨fun hc => by simp at hc,
        fun _ => ⟨rfl, [], Event.error e, rfl, rfl⟩⟩
    | panicked msg =>
      rw [runLoopBlocking] at h
      injection h with h
      subst h
      exact ⟨fun hc => by simp at hc,
        fun _ => ⟨rfl, [], Event.error ("execution loop panic: " ++ msg), rfl, rfl⟩⟩
    | reply m =>
      rw [runLoopBlocking] at h
      by_cases htc : getToolCalls m = []
      · rw [if_pos htc] at h
        injection h with h
        subst h
        refine ⟨fun _ => ?_, fun hc => by simp at hc⟩
        by_cases ht : getContent m = "" <;> simp [ht, isTerminal]
      · rw [if_neg htc] at h
        simp only [] at h
        rcases hrec : runLoopBlocking env hasRegistry rest
            (hist ++ [m] ++
              [⟨Role.user, (executeToolsWithEvents env hasRegistry
                  (getToolCalls m)).1.map (fun b =>
                ContentBlock.toolResultBlock b.toolUseID b.content b.isError)⟩])
            (tu ++ (executeToolsWithEvents env hasRegistry (getToolCalls m)).2.1)
            (sc + 1) with _ | out0
        · rw [hrec] at h; exact absurd h (by simp)
        · rw [hrec] at h
          injection h with h
          subst h
          obtain ⟨ih1, ih2⟩ := ih _ _ _ out0 hrec
          have hpre :
              ((getToolCalls m).map Event.toolCall ++
                (executeToolsWithEvents env hasRegistry
                  (getToolCalls m)).2.2).countP isTerminal = 0 := by
            rw [List.countP_append, countP_toolCallEvents, countP_execEvents]
          constructor
          · intro hs
            rw [List.countP_append, hpre, ih1 hs]
          · intro hn
            obtain ⟨hcount, es, e, hev, hterm⟩ := ih2 hn
            refine ⟨?_, ((getToolCalls m).map Event.toolCall ++
              (executeToolsWithEvents env hasRegistry (getToolCalls m)).2.2) ++ es,
              e, ?_, hterm⟩
            · rw [List.countP_append, hpre, hcount]
            · simp [hev]

theorem countP_streamEvents (cs : List Chunk) :
    ((callProviderStreaming cs).1).countP isTerminal = 0 := by
  have h := countP_aggEvents cs initAgg
  simpa [callProviderStreaming, processChunks, initAgg] using h

theorem runLoopStreaming_terminal (env : ToolEnv) (hasRegistry : Bool) :
    ∀ (script : List SStep) (hist : List Message) (tu : List String)
      (sc : Nat) (out : LoopOut),
      runLoopStreaming env hasRegistry script hist tu sc = some out →
      (out.result.isSome = true → out.events.countP isTerminal = 0) ∧
      (out.result = none → out.events.countP isTerminal = 1 ∧
        ∃ es e, out.events = es ++ [e] ∧ isTerminal e = true) := by
  intro script
  induction script with
  | nil => intro hist tu sc out h; exact absurd h (by simp [runLoopStreaming])
  | cons step rest ih =>
    intro hist tu sc out h
    cases step with
    | cancelled =>
      rw [runLoopStreaming] at h
      injection h with h
      subst h
      exact ⟨fun hc => by simp at hc,
        fun _ => ⟨rfl, [], Event.error ctxCanceledErr, rfl, rfl⟩⟩
    | stopped =>
      rw [runLoopStreaming] at h
      injection h with h
      subst h
      exact ⟨fun hc => by simp at hc,
        fun _ => ⟨rfl, [], Event.error errAgentStopped, rfl, rfl⟩⟩
    | provErr e =>
      rw [runLoopStreaming] at h
      injection h with h
      subst h
      exact ⟨fun hc => by simp at hc,
        fun _ => ⟨rfl, [], Event.error e, rfl, rfl⟩⟩
    | panicked msg =>
      rw [runLoopStreaming] at h
      injection h with h
      subst h
      exact ⟨fun hc => by simp at hc,
        fun _ => ⟨rfl, [], Event.error ("streaming loop panic: " ++ msg), rfl, rfl⟩⟩
    | chunks cs =>
      rw [runLoopStreaming] at h
      by_cases htc : getToolCalls (callProviderStreaming cs).2 = []
      · rw [if_pos htc] at h
        injection h with h
        subst h
        exact ⟨fun _ => countP_streamEvents cs, fun hc => by simp at hc⟩
      · rw [if_neg htc] at h
        simp only [] at h
        rcases hrec : runLoopStreaming env hasRegistry rest
            (hist ++ [(callProviderStreaming cs).2] ++
              [⟨Role.user, (executeToolsWithEvents env hasRegistry
                  (getToolCalls (callProviderStreaming cs).2)).1.map (fun b =>
                ContentBlock.toolResultBlock b.toolUseID b.content b.isError)⟩])
            (tu ++ (executeToolsWithEvents env hasRegistry
              (getToolCalls (callProviderStreaming cs).2)).2.1)
            (sc + 1) with _ | out0
        · rw [hrec] at h; exact absurd h (by simp)
        · rw [hrec] at h
          injection h with h
          subst h
          obtain ⟨ih1, ih2⟩ := ih _ _ _ out0 hrec
          have hpre :
              ((callProviderStreaming cs).1 ++
                (getToolCalls (callProviderStreaming cs).2).map Event.toolCall ++
                (executeToolsWithEvents env hasRegistry
                  (getToolCalls (callProviderStreaming cs).2)).2.2).countP
                isTerminal = 0 := by
            rw [List.countP_append, List.countP_append, countP_streamEvents,
              countP_toolCallEvents, countP_execEvents]
          constructor
          · intro hs
            have h0 := ih1 hs
            show (((callProviderStreaming cs).1 ++
              (getToolCalls (callProviderStreaming cs).2).map Event.toolCall ++
              (executeToolsWithEvents env hasRegistry
                (getToolCalls (callProviderStreaming cs).2)).2.2) ++
              out0.events).countP isTerminal = 0
            rw [List.countP_append, hpre, h0]
          · intro hn
            obtain ⟨hcount, es, e, hev, hterm⟩ := ih2 hn
            refine ⟨?_, ((callProviderStreaming cs).1 ++
              (getToolCalls (callProviderStreaming cs).2).map Event.toolCall ++
              (executeToolsWithEvents env hasRegistry
                (getToolCalls (callProviderStreaming cs).2)).2.2) ++ es,
              e, ?_, hterm⟩
            · show (((callProviderStreaming cs).1 ++
                (getToolCalls (callProviderStreaming cs).2).map Event.toolCall ++
                (executeToolsWithEvents env hasRegistry
                  (getToolCalls (callProviderStreaming cs).2)).2.2) ++
                out0.events).countP isTerminal = 1
              rw [List.countP_append, hpre, hcount]
            · simp [hev]

/-- A trivially behaving tool environment, for concrete instances. -/
def trivialEnv : ToolEnv :=
  ⟨fun _ => true, fun _ => Except.ok "", fun _ _ => OpOutcome.finished none none,
   fun _ => ""⟩

/-- Claim C9: every terminating invocation of Run — rejected runs, runs
ending in cancellation, stop, provider failure, loop panic or goroutine
panic, and successful runs, in either mode — delivers exactly one terminal
event (one done or one error) on the queue before it is closed, and that
terminal event is the last event delivered. -/
theorem c9_exactly_one_terminal (env : ToolEnv) (hasRegistry : Bool)
    (st : State) (outerPanic : Option String) (userText : String)
    (sc : Script) (evs : List Event)
    (h : runAgent env hasRegistry st outerPanic userText sc = some evs) :
    evs.countP isTerminal = 1 ∧
    ∃ es e, evs = es ++ [e] ∧ isTerminal e = true := by
  unfold runAgent at h
  by_cases hstop : st = State.stopped ∨ st = State.stopping
  · rw [if_pos hstop] at h
    injection h with h
    subst h
    exact ⟨rfl, [], Event.error errAgentStopped, rfl, rfl⟩
  · rw [if_neg hstop] at h
    cases outerPanic with
    | some msg =>
      injection h with h
      subst h
      exact ⟨rfl, [], Event.error ("agent panic: " ++ msg), rfl, rfl⟩
    | none =>
      simp only [] at h
      cases sc with
      | blocking s =>
        simp only [] at h
        rcases hout : runLoopBlocking env hasRegistry s
            [⟨Role.user, [ContentBlock.textBlock userText]⟩] [] 0 with _ | out
        · rw [hout] at h; exact absurd h (by simp)
        · rw [hout] at h
          obtain ⟨oevs, ores⟩ := out
          obtain ⟨l1, l2⟩ := runLoopBlocking_terminal env hasRegistry s
            [⟨Role.user, [ContentBlock.textBlock userText]⟩] [] 0 ⟨oevs, ores⟩ hout
          cases ores with
          | none =>
            injection h with h
            subst h
            exact ⟨(l2 rfl).1, (l2 rfl).2⟩
          | some r =>
            obtain ⟨t, msgs, tus, n⟩ := r
            injection h with h
            subst h
            refine ⟨?_, oevs, Event.done t msgs tus n, rfl, rfl⟩
            rw [List.countP_append, l1 rfl]
            rfl
      | streaming s =>
        simp only [] at h
        rcases hout : runLoopStreaming env hasRegistry s
            [⟨Role.user, [ContentBlock.textBlock userText]⟩] [] 0 with _ | out
        · rw [hout] at h; exact absurd h (by simp)
        · rw [hout] at h
          obtain ⟨oevs, ores⟩ := out
          obtain ⟨l1, l2⟩ := runLoopStreaming_terminal env hasRegistry s
            [⟨Role.user, [ContentBlock.textBlock userText]⟩] [] 0 ⟨oevs, ores⟩ hout
          cases ores with
          | none =>
            injection h with h
            subst h
            exact ⟨(l2 rfl).1, (l2 rfl).2⟩
          | some r =>
            obtain ⟨t, msgs, tus, n⟩ := r
            injection h with h
            subst h
            refine ⟨?_, oevs, Event.done t msgs tus n, rfl, rfl⟩
            rw [List.countP_append, l1 rfl]
            rfl

/-- Witness for c9_exactly_one_terminal: a one-step blocking run that
answers "2" delivers the text event and exactly one terminal done event. -/
theorem c9_exactly_one_terminal_witness :
    runAgent trivialEnv true State.ready none "1+1=?"
        (Script.blocking [BStep.reply ⟨Role.assistant, [ContentBlock.textBlock "2"]⟩]) =
      some [Event.text "2",
        Event.done "2"
          [⟨Role.user, [ContentBlock.textBlock "1+1=?"]⟩,
           ⟨Role.assistant, [ContentBlock.textBlock "2"]⟩] [] 1] ∧
    ([Event.text "2",
      Event.done "2"
        [⟨Role.user, [ContentBlock.textBlock "1+1=?"]⟩,
         ⟨Role.assistant, [ContentBlock.textBlock "2"]⟩] [] 1] : List Event).countP
      isTerminal = 1 :=
  ⟨by decide,
   (c9_exactly_one_terminal trivialEnv true State.ready none "1+1=?"
     (Script.blocking [BStep.reply ⟨Role.assistant, [ContentBlock.textBlock "2"]⟩])
     [Event.text "2",
      Event.done "2"
        [⟨Role.user, [ContentBlock.textBlock "1+1=?"]⟩,
         ⟨Role.assistant, [ContentBlock.textBlock "2"]⟩] [] 1]
     (by decide)).1⟩

/-- Claim C10: in blocking mode, a final message without tool calls emits
no text event when its text is empty — the caller then sees only the done
event, whose result text is the empty string — and exactly one text event
carrying the full text (before the done event) otherwise. -/
theorem c10_blocking_final_text (env : ToolEnv) (hasRegistry : Bool)
    (m : Message) (hist : List Message) (tu : List String) (sc : Nat)
    (userText : String) (hncl : getToolCalls m = []) :
    runLoopBlocking env hasRegistry [BStep.reply m] hist tu sc =
      some ⟨(if getContent m = "" then [] else [Event.text (getContent m)]),
            some (getContent m, hist ++ [m], tu, sc + 1)⟩ ∧
    runAgent env hasRegistry State.ready none userText
        (Script.blocking [BStep.reply m]) =
      some ((if getContent m = "" then [] else [Event.text (getContent m)]) ++
        [Event.done (getContent m)
          ([⟨Role.user, [ContentBlock.textBlock userText]⟩] ++ [m]) [] 1]) := by
  have h1 : runLoopBlocking env hasRegistry [BStep.reply m] hist tu sc =
      some ⟨(if getContent m = "" then [] else [Event.text (getContent m)]),
            some (getContent m, hist ++ [m], tu, sc + 1)⟩ := by
    rw [runLoopBlocking]
    rw [if_pos hncl]
  have h2 : runLoopBlocking env hasRegistry [BStep.reply m]
      [⟨Role.user, [ContentBlock.textBlock userText]⟩] [] 0 =
      some ⟨(if getContent m = "" then [] else [Event.text (getContent m)]),
            some (getContent m,
              [⟨Role.user, [ContentBlock.textBlock userText]⟩] ++ [m], [], 0 + 1)⟩ := by
    rw [runLoopBlocking]
    rw [if_pos hncl]
  refine ⟨h1, ?_⟩
  unfold runAgent
  rw [if_neg (by simp)]
  simp only [h2]

/-- Witness for c10_blocking_final_text: a final assistant message with no
blocks (empty text, no tool calls) produces only the terminal done event,
whose result text is empty. -/
theorem c10_blocking_final_text_witness :
    getToolCalls ⟨Role.assistant, []⟩ = [] ∧
    runAgent trivialEnv true State.ready none "q"
        (Script.blocking [BStep.reply ⟨Role.assistant, []⟩]) =
      some [Event.done ""
        [⟨Role.user, [ContentBlock.textBlock "q"]⟩, ⟨Role.assistant, []⟩] [] 1] :=
  ⟨rfl,
   (c10_blocking_final_text trivialEnv true ⟨Role.assistant, []⟩ [] [] 0 "q"
     rfl).2.trans (by decide)⟩

end AgentCore
